import Mathlib

/-!
Verification of `pxr/usd/usd/primTypeInfoCache.h` (class `Usd_PrimTypeInfoCache`):
a process-wide interning cache mapping a composite key, derived from a prim type
name and an ordered list of applied API schema names, to a unique cached
`Usd_PrimTypeInfo` descriptor.

The embedding is a shallow one.  `TfToken` values are modelled as Lean `String`s;
descriptor objects live in an explicit heap addressed by natural numbers, so that
the C++ notion of "the identical descriptor address" becomes equality of heap
addresses.  The sequential behaviour of `FindOrCreatePrimTypeInfo`, `Find` and
`Insert` is modelled by explicit state passing; the concurrent behaviour needed
for the per-key race-resolution property is modelled by a small-step interleaving
relation over a pool of threads each running `FindOrCreatePrimTypeInfo`.
-/

namespace PrimTypeInfoCache

/-- Modelled from the spec: an `Identifier` (`TfToken`, defined in
`pxr/base/tf/token.h`, outside this file) is an interned, equality-comparable,
hashable string-like value.  At the level of values it is exactly its string
contents, so we model it as `String`.  `TfToken::IsEmpty` is emptiness of the
string and concatenation into a `std::string` is string append. -/
abbrev TfToken := String

/-- `TfTokenVector` is `std::vector<TfToken>`: an ordered sequence of tokens. -/
abbrev TfTokenVector := List TfToken

/-- Modelled from the spec: the cached descriptor (`Usd_PrimTypeInfo`, defined
in `pxr/usd/usd/primTypeInfo.h`, outside this file) is an immutable value
constructed from the prim type name and the ordered applied-schema list, and it
holds exactly the data it was built from. -/
structure Usd_PrimTypeInfo where
  primType : TfToken
  appliedSchemas : TfTokenVector
deriving DecidableEq

/-- `Usd_PrimTypeInfoCache::_CreatePrimTypeInfoKey`: if there are no applied
schemas the key is the prim type token itself; otherwise the key is built by
appending, to the prim type string, `","` followed by the schema name, once for
each applied schema in order. -/
def _CreatePrimTypeInfoKey (primType : TfToken)
    (appliedSchemaTypes : TfTokenVector) : TfToken :=
  if appliedSchemaTypes.isEmpty then
    primType
  else
    appliedSchemaTypes.foldl (fun acc schemaType => acc ++ "," ++ schemaType) primType

/-- The state of one `Usd_PrimTypeInfoCache` object together with the heap of
descriptor objects it can reach.  `entries` is the contents of the
`_ThreadSafeHashMapImpl` hash map (`key → descriptor address`); `heap` records
which addresses hold live descriptor objects and their contents; `nextAddr` is
the allocator: `new Usd_PrimTypeInfo(...)` returns `nextAddr` (fresh, never
reused); `emptyPrimTypeInfo` is the `_emptyPrimTypeInfo` member set by the
constructor to the address of the static empty prim type info. -/
structure CacheState where
  entries : List (TfToken × Nat)
  heap : Nat → Option Usd_PrimTypeInfo
  nextAddr : Nat
  emptyPrimTypeInfo : Nat

/-- The state produced by the `Usd_PrimTypeInfoCache` constructor: the hash map
is empty and `_emptyPrimTypeInfo` points at the (already live) static empty
prim type info, which we place at address `0`. -/
def initState : CacheState where
  entries := []
  heap := fun n => if n = 0 then some ⟨"", []⟩ else none
  nextAddr := 1
  emptyPrimTypeInfo := 0

/-- `_ThreadSafeHashMapImpl::Find`: return the address stored under `key` if
present, and null (`none`) otherwise. -/
def Find (s : CacheState) (key : TfToken) : Option Nat :=
  s.entries.lookup key

/-- `_ThreadSafeHashMapImpl::Insert`: if `key` is absent the map claims it and
takes ownership of the offered descriptor `valuePtr`; if `key` is present the
offered descriptor is not stored, so the caller's `unique_ptr` destroys it when
`Insert` returns.  Either way the address now stored under `key` is returned. -/
def Insert (s : CacheState) (key : TfToken) (valuePtr : Nat) : CacheState × Nat :=
  match s.entries.lookup key with
  | some existing =>
      ({ s with heap := fun n => if n = valuePtr then none else s.heap n }, existing)
  | none =>
      ({ s with entries := (key, valuePtr) :: s.entries }, valuePtr)

/-- `Usd_PrimTypeInfoCache::GetEmptyPrimTypeInfo`: return `_emptyPrimTypeInfo`. -/
def GetEmptyPrimTypeInfo (s : CacheState) : Nat :=
  s.emptyPrimTypeInfo

/-- `Usd_PrimTypeInfoCache::FindOrCreatePrimTypeInfo`: build the key; for the
empty key return the empty prim type info; otherwise try `Find`, and on a miss
allocate a new `Usd_PrimTypeInfo` from the inputs and hand it to `Insert`,
returning whatever address `Insert` yields. -/
def FindOrCreatePrimTypeInfo (s : CacheState) (primType : TfToken)
    (appliedSchemas : TfTokenVector) : CacheState × Nat :=
  let key := _CreatePrimTypeInfoKey primType appliedSchemas
  if key.isEmpty then
    (s, GetEmptyPrimTypeInfo s)
  else
    match Find s key with
    | some primTypeInfo => (s, primTypeInfo)
    | none =>
        let newPrimTypeInfo := s.nextAddr
        let s1 : CacheState :=
          { s with
            heap := fun n =>
              if n = s.nextAddr then some ⟨primType, appliedSchemas⟩ else s.heap n
            nextAddr := s.nextAddr + 1 }
        Insert s1 key newPrimTypeInfo

/-- Run a sequence of `FindOrCreatePrimTypeInfo` calls, threading the state. -/
def runCalls (s : CacheState) (calls : List (TfToken × TfTokenVector)) : CacheState :=
  calls.foldl (fun st c => (FindOrCreatePrimTypeInfo st c.1 c.2).1) s

/-- Well-formedness of a cache state: the empty singleton is live and was
allocated before any map entry; every map entry holds a live, non-singleton
descriptor allocated by the allocator under a non-empty key; and the map holds
at most one entry per key. -/
def WF (s : CacheState) : Prop :=
  s.emptyPrimTypeInfo < s.nextAddr ∧
  (s.heap s.emptyPrimTypeInfo).isSome = true ∧
  (∀ k p, (k, p) ∈ s.entries →
    (s.heap p).isSome = true ∧ p < s.nextAddr ∧ p ≠ s.emptyPrimTypeInfo ∧
      k.isEmpty = false) ∧
  (s.entries.map Prod.fst).Nodup

/-- The key exactly as section 4.1 of the spec words it: for an empty trait
list the key is the base type itself; otherwise it is the concatenation of the
base type followed by each trait name in order, each preceded by a single `","`
separator. -/
def buildKeySpec (baseType : TfToken) (traits : TfTokenVector) : TfToken :=
  if traits = [] then baseType
  else baseType ++ String.join (traits.map (fun t => "," ++ t))

/-- The comma-encoding of a trait list at the level of character lists. -/
def encodeTraits (traits : TfTokenVector) : List Char :=
  (traits.map (fun t => ',' :: t.data)).flatten

theorem string_data_inj {a b : String} (h : a.data = b.data) : a = b := by
  cases a; cases b; simp_all

theorem encodeTraits_nil : encodeTraits [] = [] := rfl

theorem encodeTraits_cons (t : TfToken) (rest : TfTokenVector) :
    encodeTraits (t :: rest) = ',' :: (t.data ++ encodeTraits rest) := by
  simp [encodeTraits]

theorem string_eq_empty_iff_data (s : String) : s = "" ↔ s.data = [] := by
  constructor
  · intro h; simp [h]
  · intro h; exact string_data_inj (by simpa using h)

theorem foldl_comma_data (ts : List String) (pt : String) :
    (ts.foldl (fun acc t => acc ++ "," ++ t) pt).data = pt.data ++ encodeTraits ts := by
  induction ts generalizing pt with
  | nil => simp [encodeTraits]
  | cons t ts ih =>
      have hc : ("," : String).data = [','] := rfl
      simp [List.foldl_cons, ih, String.data_append, hc, encodeTraits_cons,
        List.append_assoc]

theorem key_data_cons (pt t : TfToken) (rest : TfTokenVector) :
    (_CreatePrimTypeInfoKey pt (t :: rest)).data = pt.data ++ encodeTraits (t :: rest) := by
  unfold _CreatePrimTypeInfoKey
  simp [foldl_comma_data, encodeTraits_cons]

theorem key_eq_buildKeySpec (pt : TfToken) (ts : TfTokenVector) :
    _CreatePrimTypeInfoKey pt ts = buildKeySpec pt ts := by
  cases ts with
  | nil => rfl
  | cons t rest =>
      apply string_data_inj
      rw [key_data_cons]
      have hc : ("," : String).data = [','] := rfl
      have hfun : (String.data ∘ fun t : String => "," ++ t) = fun t => ',' :: t.data := by
        funext u
        simp [String.data_append, hc]
      simp [buildKeySpec, String.data_append, String.data_join, encodeTraits,
        List.map_map, hfun]

theorem key_isEmpty_iff (pt : TfToken) (ts : TfTokenVector) :
    (_CreatePrimTypeInfoKey pt ts).isEmpty = true ↔ (pt.isEmpty = true ∧ ts = []) := by
  cases ts with
  | nil =>
      have h : _CreatePrimTypeInfoKey pt [] = pt := rfl
      simp [h]
  | cons t rest =>
      have hne : _CreatePrimTypeInfoKey pt (t :: rest) ≠ "" := by
        intro h
        rw [string_eq_empty_iff_data, key_data_cons, encodeTraits_cons] at h
        simp at h
      simp [String.isEmpty_iff, hne]

theorem key_comma_mem (pt t : TfToken) (rest : TfTokenVector) :
    ',' ∈ (_CreatePrimTypeInfoKey pt (t :: rest)).data := by
  rw [key_data_cons, encodeTraits_cons]
  simp

theorem key_head_comma (t : TfToken) (rest : TfTokenVector) :
    (_CreatePrimTypeInfoKey "" (t :: rest)).data.head? = some ',' := by
  rw [key_data_cons, encodeTraits_cons]
  rfl

theorem comma_split :
    ∀ (w1 w2 r1 r2 : List Char),
      (∀ c ∈ w1, c ≠ ',') → (∀ c ∈ w2, c ≠ ',') →
      (r1 = [] ∨ r1.head? = some ',') → (r2 = [] ∨ r2.head? = some ',') →
      w1 ++ r1 = w2 ++ r2 → w1 = w2 ∧ r1 = r2 := by
  intro w1
  induction w1 with
  | nil =>
      intro w2 r1 r2 h1 h2 hr1 hr2 heq
      cases w2 with
      | nil => exact ⟨rfl, by simpa using heq⟩
      | cons c w2 =>
          exfalso
          simp only [List.nil_append, List.cons_append] at heq
          rcases hr1 with h | h
          · rw [h] at heq
            exact List.noConfusion heq
          · rw [heq] at h
            simp only [List.head?_cons, Option.some.injEq] at h
            exact h2 c (by simp) h
  | cons c w1 ih =>
      intro w2 r1 r2 h1 h2 hr1 hr2 heq
      cases w2 with
      | nil =>
          exfalso
          simp only [List.nil_append, List.cons_append] at heq
          rcases hr2 with h | h
          · rw [h] at heq
            exact List.noConfusion heq
          · rw [← heq] at h
            simp only [List.head?_cons, Option.some.injEq] at h
            exact h1 c (by simp) h
      | cons d w2 =>
          simp only [List.cons_append, List.cons.injEq] at heq
          obtain ⟨hcd, htail⟩ := heq
          obtain ⟨hw, hr⟩ := ih w2 r1 r2
            (fun x hx => h1 x (List.mem_cons_of_mem c hx))
            (fun x hx => h2 x (List.mem_cons_of_mem d hx)) hr1 hr2 htail
          exact ⟨by rw [hcd, hw], hr⟩

theorem encodeTraits_head (ts : TfTokenVector) :
    encodeTraits ts = [] ∨ (encodeTraits ts).head? = some ',' := by
  cases ts with
  | nil => exact Or.inl rfl
  | cons t rest =>
      right
      rw [encodeTraits_cons]
      rfl

theorem encodeTraits_inj :
    ∀ l1 l2 : TfTokenVector,
      (∀ t ∈ l1, ',' ∉ t.data) → (∀ t ∈ l2, ',' ∉ t.data) →
      encodeTraits l1 = encodeTraits l2 → l1 = l2 := by
  intro l1
  induction l1 with
  | nil =>
      intro l2 h1 h2 heq
      cases l2 with
      | nil => rfl
      | cons u us =>
          rw [encodeTraits_nil, encodeTraits_cons] at heq
          exact absurd heq (by simp)
  | cons t ts ih =>
      intro l2 h1 h2 heq
      cases l2 with
      | nil =>
          rw [encodeTraits_cons, encodeTraits_nil] at heq
          exact absurd heq (by simp)
      | cons u us =>
          rw [encodeTraits_cons, encodeTraits_cons] at heq
          simp only [List.cons.injEq] at heq
          obtain ⟨hw, hr⟩ := comma_split t.data u.data (encodeTraits ts) (encodeTraits us)
            (fun c hc hceq => h1 t (by simp) (hceq ▸ hc))
            (fun c hc hceq => h2 u (by simp) (hceq ▸ hc))
            (encodeTraits_head ts) (encodeTraits_head us) heq.2
          rw [string_data_inj hw, ih us
            (fun x hx => h1 x (List.mem_cons_of_mem t hx))
            (fun x hx => h2 x (List.mem_cons_of_mem u hx)) hr]

theorem key_inj_of_no_comma (pt : TfToken) (l1 l2 : TfTokenVector)
    (hne1 : l1 ≠ []) (hne2 : l2 ≠ [])
    (hc1 : ∀ t ∈ l1, ',' ∉ t.data) (hc2 : ∀ t ∈ l2, ',' ∉ t.data)
    (heq : _CreatePrimTypeInfoKey pt l1 = _CreatePrimTypeInfoKey pt l2) : l1 = l2 := by
  cases l1 with
  | nil => exact absurd rfl hne1
  | cons t ts =>
      cases l2 with
      | nil => exact absurd rfl hne2
      | cons u us =>
          have hdata := congrArg String.data heq
          rw [key_data_cons, key_data_cons] at hdata
          exact encodeTraits_inj (t :: ts) (u :: us) hc1 hc2 (List.append_cancel_left hdata)

theorem lookup_some_mem {l : List (TfToken × Nat)} {k : TfToken} {p : Nat}
    (h : l.lookup k = some p) : (k, p) ∈ l := by
  induction l with
  | nil => simp [List.lookup] at h
  | cons e l ih =>
      obtain ⟨k1, p1⟩ := e
      rw [List.lookup_cons] at h
      by_cases hk : k = k1
      · simp [hk] at h
        simp [hk, h]
      · have hbe : (k == k1) = false := beq_false_of_ne hk
        rw [hbe] at h
        exact List.mem_cons_of_mem _ (ih h)

theorem lookup_none_not_key {l : List (TfToken × Nat)} {k : TfToken}
    (h : l.lookup k = none) : k ∉ l.map Prod.fst := by
  induction l with
  | nil => simp
  | cons e l ih =>
      obtain ⟨k1, p1⟩ := e
      rw [List.lookup_cons] at h
      by_cases hk : k = k1
      · simp [hk] at h
      · have hbe : (k == k1) = false := beq_false_of_ne hk
        rw [hbe] at h
        simp [hk, ih h]

theorem lookup_cons_self {l : List (TfToken × Nat)} {k : TfToken} {p : Nat} :
    (((k, p) :: l).lookup k) = some p := by
  rw [List.lookup_cons]
  simp

theorem lookup_cons_ne {l : List (TfToken × Nat)} {k k1 : TfToken} {p : Nat}
    (h : k ≠ k1) : (((k1, p) :: l).lookup k) = l.lookup k := by
  rw [List.lookup_cons]
  rw [beq_false_of_ne h]

theorem Insert_found {s : CacheState} {key : TfToken} {p valuePtr : Nat}
    (h : s.entries.lookup key = some p) :
    Insert s key valuePtr =
      ({ s with heap := fun n => if n = valuePtr then none else s.heap n }, p) := by
  unfold Insert
  rw [h]

theorem Insert_absent {s : CacheState} {key : TfToken} {valuePtr : Nat}
    (h : s.entries.lookup key = none) :
    Insert s key valuePtr =
      ({ s with entries := (key, valuePtr) :: s.entries }, valuePtr) := by
  unfold Insert
  rw [h]

theorem FindOrCreate_empty_key {pt : TfToken} {schemas : TfTokenVector}
    (h : (_CreatePrimTypeInfoKey pt schemas).isEmpty = true) (s : CacheState) :
    FindOrCreatePrimTypeInfo s pt schemas = (s, s.emptyPrimTypeInfo) := by
  unfold FindOrCreatePrimTypeInfo GetEmptyPrimTypeInfo
  simp [h]

theorem FindOrCreate_hit {s : CacheState} {pt : TfToken} {schemas : TfTokenVector} {p : Nat}
    (hk : (_CreatePrimTypeInfoKey pt schemas).isEmpty = false)
    (h : Find s (_CreatePrimTypeInfoKey pt schemas) = some p) :
    FindOrCreatePrimTypeInfo s pt schemas = (s, p) := by
  unfold FindOrCreatePrimTypeInfo
  simp [hk, h]

theorem FindOrCreate_miss {s : CacheState} {pt : TfToken} {schemas : TfTokenVector}
    (hk : (_CreatePrimTypeInfoKey pt schemas).isEmpty = false)
    (h : Find s (_CreatePrimTypeInfoKey pt schemas) = none) :
    FindOrCreatePrimTypeInfo s pt schemas =
      ({ s with
          entries := (_CreatePrimTypeInfoKey pt schemas, s.nextAddr) :: s.entries,
          heap := fun n =>
            if n = s.nextAddr then some ⟨pt, schemas⟩ else s.heap n,
          nextAddr := s.nextAddr + 1 }, s.nextAddr) := by
  unfold FindOrCreatePrimTypeInfo
  have h2 : (({ s with
      heap := fun n =>
        if n = s.nextAddr then some ⟨pt, schemas⟩ else s.heap n,
      nextAddr := s.nextAddr + 1 } : CacheState).entries.lookup
        (_CreatePrimTypeInfoKey pt schemas)) = none := h
  simp only [hk, Bool.false_eq_true, if_false, h, Insert_absent h2]

theorem WF_initState : WF initState := by
  refine ⟨Nat.zero_lt_one, rfl, ?_, ?_⟩
  · intro k p hmem
    simp [initState] at hmem
  · simp [initState]

theorem WF_FindOrCreate {s : CacheState} (hwf : WF s) (pt : TfToken)
    (schemas : TfTokenVector) : WF (FindOrCreatePrimTypeInfo s pt schemas).1 := by
  obtain ⟨hlt, hemp, hent, hnd⟩ := hwf
  rcases hk : (_CreatePrimTypeInfoKey pt schemas).isEmpty with _ | _
  · rcases hfind : Find s (_CreatePrimTypeInfoKey pt schemas) with _ | p
    · rw [FindOrCreate_miss hk hfind]
      refine ⟨Nat.lt_succ_of_lt hlt, ?_, ?_, ?_⟩
      · have hne : s.emptyPrimTypeInfo ≠ s.nextAddr := Nat.ne_of_lt hlt
        simpa [hne] using hemp
      · intro k p hmem
        rcases List.mem_cons.mp hmem with hhd | htl
        · have hk1 : k = _CreatePrimTypeInfoKey pt schemas := congrArg Prod.fst hhd
          have hp1 : p = s.nextAddr := congrArg Prod.snd hhd
          subst hk1
          subst hp1
          exact ⟨by simp, Nat.lt_succ_self _, (Nat.ne_of_lt hlt).symm, hk⟩
        · obtain ⟨hlive, hplt, hpne, hkne⟩ := hent k p htl
          have hne : p ≠ s.nextAddr := Nat.ne_of_lt hplt
          refine ⟨by simpa [hne] using hlive, Nat.lt_succ_of_lt hplt, hpne, hkne⟩
      · refine List.Nodup.cons ?_ hnd
        exact lookup_none_not_key hfind
    · rw [FindOrCreate_hit hk hfind]
      exact ⟨hlt, hemp, hent, hnd⟩
  · rw [FindOrCreate_empty_key hk]
    exact ⟨hlt, hemp, hent, hnd⟩

theorem Find_mono_FindOrCreate {s : CacheState} {k : TfToken} {p : Nat}
    (h : Find s k = some p) (pt : TfToken) (schemas : TfTokenVector) :
    Find (FindOrCreatePrimTypeInfo s pt schemas).1 k = some p := by
  rcases hk : (_CreatePrimTypeInfoKey pt schemas).isEmpty with _ | _
  · rcases hfind : Find s (_CreatePrimTypeInfoKey pt schemas) with _ | q
    · rw [FindOrCreate_miss hk hfind]
      have hne : k ≠ _CreatePrimTypeInfoKey pt schemas := by
        intro he
        rw [he, hfind] at h
        exact Option.noConfusion h
      show (((_CreatePrimTypeInfoKey pt schemas, s.nextAddr) :: s.entries).lookup k) = some p
      rw [lookup_cons_ne hne]
      exact h
    · rw [FindOrCreate_hit hk hfind]
      exact h
  · rw [FindOrCreate_empty_key hk]
    exact h

theorem Find_mono_runCalls {s : CacheState} {k : TfToken} {p : Nat}
    (h : Find s k = some p) (calls : List (TfToken × TfTokenVector)) :
    Find (runCalls s calls) k = some p := by
  induction calls generalizing s with
  | nil => exact h
  | cons c calls ih =>
      exact ih (Find_mono_FindOrCreate h c.1 c.2)

theorem WF_runCalls {s : CacheState} (hwf : WF s)
    (calls : List (TfToken × TfTokenVector)) : WF (runCalls s calls) := by
  induction calls generalizing s with
  | nil => exact hwf
  | cons c calls ih => exact ih (WF_FindOrCreate hwf c.1 c.2)

theorem FindOrCreate_idem {s s1 : CacheState} {pt : TfToken}
    {schemas : TfTokenVector} {p : Nat}
    (h : FindOrCreatePrimTypeInfo s pt schemas = (s1, p)) :
    FindOrCreatePrimTypeInfo s1 pt schemas = (s1, p) := by
  rcases hk : (_CreatePrimTypeInfoKey pt schemas).isEmpty with _ | _
  · rcases hfind : Find s (_CreatePrimTypeInfoKey pt schemas) with _ | q
    · rw [FindOrCreate_miss hk hfind] at h
      obtain ⟨hs1, hp⟩ := Prod.mk.injEq .. ▸ h
      have hfind1 : Find s1 (_CreatePrimTypeInfoKey pt schemas) = some p := by
        rw [← hs1, ← hp]
        exact lookup_cons_self
      rw [FindOrCreate_hit hk hfind1]
    · rw [FindOrCreate_hit hk hfind] at h
      obtain ⟨hs1, hp⟩ := Prod.mk.injEq .. ▸ h
      subst hs1
      subst hp
      rw [FindOrCreate_hit hk hfind]
  · rw [FindOrCreate_empty_key hk] at h
    obtain ⟨hs1, hp⟩ := Prod.mk.injEq .. ▸ h
    subst hs1
    subst hp
    rw [FindOrCreate_empty_key hk]

theorem FindOrCreate_ret_live {s : CacheState} (hwf : WF s) (pt : TfToken)
    (schemas : TfTokenVector) :
    ((FindOrCreatePrimTypeInfo s pt schemas).1.heap
      (FindOrCreatePrimTypeInfo s pt schemas).2).isSome = true := by
  obtain ⟨hlt, hemp, hent, hnd⟩ := hwf
  rcases hk : (_CreatePrimTypeInfoKey pt schemas).isEmpty with _ | _
  · rcases hfind : Find s (_CreatePrimTypeInfoKey pt schemas) with _ | p
    · rw [FindOrCreate_miss hk hfind]
      simp
    · rw [FindOrCreate_hit hk hfind]
      exact (hent _ p (lookup_some_mem hfind)).1
  · rw [FindOrCreate_empty_key hk]
    exact hemp

theorem Find_ne_emptyAddr {s : CacheState} (hwf : WF s) (k : TfToken) :
    Find s k ≠ some s.emptyPrimTypeInfo := by
  intro h
  exact (hwf.2.2.1 k s.emptyPrimTypeInfo (lookup_some_mem h)).2.2.1 rfl

theorem FindOrCreate_ret_ne_empty {s : CacheState} (hwf : WF s) {pt : TfToken}
    {schemas : TfTokenVector}
    (hk : (_CreatePrimTypeInfoKey pt schemas).isEmpty = false) :
    (FindOrCreatePrimTypeInfo s pt schemas).2 ≠ s.emptyPrimTypeInfo := by
  rcases hfind : Find s (_CreatePrimTypeInfoKey pt schemas) with _ | p
  · rw [FindOrCreate_miss hk hfind]
    exact (Nat.ne_of_lt hwf.1).symm
  · rw [FindOrCreate_hit hk hfind]
    intro h
    have hp : p = s.emptyPrimTypeInfo := h
    rw [hp] at hfind
    exact Find_ne_emptyAddr hwf _ hfind

theorem FindOrCreate_finds_key {s : CacheState} {pt : TfToken} {schemas : TfTokenVector}
    (hk : (_CreatePrimTypeInfoKey pt schemas).isEmpty = false) :
    Find (FindOrCreatePrimTypeInfo s pt schemas).1 (_CreatePrimTypeInfoKey pt schemas) =
      some (FindOrCreatePrimTypeInfo s pt schemas).2 := by
  rcases hfind : Find s (_CreatePrimTypeInfoKey pt schemas) with _ | p
  · rw [FindOrCreate_miss hk hfind]
    exact lookup_cons_self
  · rw [FindOrCreate_hit hk hfind]
    exact hfind

/-- C1: interning invariant and idempotence.  Once `FindOrCreatePrimTypeInfo`
has returned descriptor address `p` for `(pt, schemas)`, calling it again on the
resulting state with equal inputs returns the very same address and leaves the
state untouched (so no new descriptor is constructed); the table keeps at most
one entry per key through any further sequence of calls; and for a non-empty key
the entry `key ↦ p` is present after the call and survives, unremoved and
unreplaced, every further sequence of `FindOrCreatePrimTypeInfo` calls. -/
theorem C1_interning_idempotence (s s1 : CacheState) (pt : TfToken)
    (schemas : TfTokenVector) (p : Nat) (hwf : WF s)
    (h : FindOrCreatePrimTypeInfo s pt schemas = (s1, p)) :
    FindOrCreatePrimTypeInfo s1 pt schemas = (s1, p) ∧
    WF s1 ∧
    (∀ calls, ((runCalls s1 calls).entries.map Prod.fst).Nodup) ∧
    ((_CreatePrimTypeInfoKey pt schemas).isEmpty = false →
      Find s1 (_CreatePrimTypeInfoKey pt schemas) = some p ∧
      ∀ calls, Find (runCalls s1 calls) (_CreatePrimTypeInfoKey pt schemas) = some p) := by
  have hs1 : (FindOrCreatePrimTypeInfo s pt schemas).1 = s1 := congrArg Prod.fst h
  have hwf1 : WF s1 := hs1 ▸ WF_FindOrCreate hwf pt schemas
  refine ⟨FindOrCreate_idem h, hwf1, ?_, ?_⟩
  · intro calls
    exact (WF_runCalls hwf1 calls).2.2.2
  · intro hk
    have hfound : Find s1 (_CreatePrimTypeInfoKey pt schemas) = some p := by
      have := FindOrCreate_finds_key (s := s) hk
      rw [h] at this
      exact this
    exact ⟨hfound, fun calls => Find_mono_runCalls hfound calls⟩

theorem C1_interning_idempotence_witness :
    FindOrCreatePrimTypeInfo (FindOrCreatePrimTypeInfo initState "Mesh" ["A"]).1
        "Mesh" ["A"] =
      ((FindOrCreatePrimTypeInfo initState "Mesh" ["A"]).1,
        (FindOrCreatePrimTypeInfo initState "Mesh" ["A"]).2) :=
  (C1_interning_idempotence initState _ "Mesh" ["A"] _ WF_initState rfl).1

/-- C2: totality.  On every well-formed state and every input,
`FindOrCreatePrimTypeInfo` returns the address of a live descriptor (never a
null pointer), the resulting state is again well formed, and when the derived
key is empty the returned address is exactly the empty singleton of
`GetEmptyPrimTypeInfo`. -/
theorem C2_totality (s : CacheState) (pt : TfToken) (schemas : TfTokenVector)
    (hwf : WF s) :
    ((FindOrCreatePrimTypeInfo s pt schemas).1.heap
      (FindOrCreatePrimTypeInfo s pt schemas).2).isSome = true ∧
    WF (FindOrCreatePrimTypeInfo s pt schemas).1 ∧
    ((_CreatePrimTypeInfoKey pt schemas).isEmpty = true →
      (FindOrCreatePrimTypeInfo s pt schemas).2 = GetEmptyPrimTypeInfo s) := by
  refine ⟨FindOrCreate_ret_live hwf pt schemas, WF_FindOrCreate hwf pt schemas, ?_⟩
  intro hk
  rw [FindOrCreate_empty_key hk]
  rfl

theorem C2_totality_witness :
    ((FindOrCreatePrimTypeInfo initState "Mesh" ["A"]).1.heap
      (FindOrCreatePrimTypeInfo initState "Mesh" ["A"]).2).isSome = true :=
  (C2_totality initState "Mesh" ["A"] WF_initState).1

/-- C3: key builder reference definition.  `_CreatePrimTypeInfoKey` agrees with
the spec-worded `buildKeySpec`; for an empty trait list the key is exactly the
prim type; for a non-empty list the key is the prim type followed by each trait
in order, each preceded by exactly one `','` (the `encodeTraits` encoding); and
for an empty prim type with traits the key begins with the separator. -/
theorem C3_key_builder (pt : TfToken) (ts : TfTokenVector) :
    _CreatePrimTypeInfoKey pt ts = buildKeySpec pt ts ∧
    (ts = [] → _CreatePrimTypeInfoKey pt ts = pt) ∧
    (∀ t rest, ts = t :: rest →
      (_CreatePrimTypeInfoKey pt ts).data = pt.data ++ encodeTraits ts) ∧
    (pt = "" → ∀ t rest, ts = t :: rest →
      (_CreatePrimTypeInfoKey pt ts).data.head? = some ',') := by
  refine ⟨key_eq_buildKeySpec pt ts, ?_, ?_, ?_⟩
  · intro h
    subst h
    rfl
  · intro t rest h
    subst h
    exact key_data_cons pt t rest
  · intro hpt t rest h
    subst hpt
    subst h
    exact key_head_comma t rest

theorem C3_key_builder_witness :
    (_CreatePrimTypeInfoKey "" ["A"]).data.head? = some ',' ∧
    _CreatePrimTypeInfoKey "Mesh" [] = "Mesh" :=
  ⟨(C3_key_builder "" ["A"]).2.2.2 rfl "A" [] rfl,
   (C3_key_builder "Mesh" []).2.1 rfl⟩

/-- C4: empty-key short-circuit.  `FindOrCreatePrimTypeInfo` on an empty prim
type and empty trait list returns exactly `GetEmptyPrimTypeInfo`'s address and
leaves the state untouched (the hash map is bypassed), and on any well-formed
state no lookup through the main map can ever yield the empty singleton's
address. -/
theorem C4_empty_short_circuit (s : CacheState) (hwf : WF s) :
    FindOrCreatePrimTypeInfo s "" [] = (s, GetEmptyPrimTypeInfo s) ∧
    (∀ k, Find s k ≠ some (GetEmptyPrimTypeInfo s)) := by
  constructor
  · exact FindOrCreate_empty_key (by decide) s
  · exact fun k => Find_ne_emptyAddr hwf k

theorem C4_empty_short_circuit_witness :
    FindOrCreatePrimTypeInfo initState "" [] = (initState, GetEmptyPrimTypeInfo initState) :=
  (C4_empty_short_circuit initState WF_initState).1

/-- C6: insert-if-absent frame condition.  If the key is already mapped,
`Insert` leaves every map entry exactly as it was, releases the offered
descriptor (its heap cell becomes dead) while touching no other heap cell, and
returns the pre-existing entry; if the key is absent, `Insert` adds exactly the
entry `key ↦ valuePtr`, leaves every other key's lookup and the whole heap
unchanged, and returns the offered descriptor, now owned by the map. -/
theorem C6_insert_frame (s : CacheState) (key : TfToken) (valuePtr : Nat) :
    (∀ p, s.entries.lookup key = some p →
      (Insert s key valuePtr).2 = p ∧
      (Insert s key valuePtr).1.entries = s.entries ∧
      (Insert s key valuePtr).1.heap valuePtr = none ∧
      (∀ n, n ≠ valuePtr → (Insert s key valuePtr).1.heap n = s.heap n) ∧
      (Insert s key valuePtr).1.nextAddr = s.nextAddr ∧
      (Insert s key valuePtr).1.emptyPrimTypeInfo = s.emptyPrimTypeInfo) ∧
    (s.entries.lookup key = none →
      (Insert s key valuePtr).2 = valuePtr ∧
      (Insert s key valuePtr).1.entries = (key, valuePtr) :: s.entries ∧
      (Insert s key valuePtr).1.entries.lookup key = some valuePtr ∧
      (∀ k, k ≠ key → (Insert s key valuePtr).1.entries.lookup k = s.entries.lookup k) ∧
      (Insert s key valuePtr).1.heap = s.heap ∧
      (Insert s key valuePtr).1.nextAddr = s.nextAddr) := by
  constructor
  · intro p h
    rw [Insert_found h]
    refine ⟨rfl, rfl, by simp, ?_, rfl, rfl⟩
    intro n hn
    simp [hn]
  · intro h
    rw [Insert_absent h]
    refine ⟨rfl, rfl, lookup_cons_self, ?_, rfl, rfl⟩
    intro k hk
    exact lookup_cons_ne hk

theorem C6_insert_frame_witness :
    (Insert (FindOrCreatePrimTypeInfo initState "A" []).1 "A" 7).2 = 1 ∧
    (Insert (FindOrCreatePrimTypeInfo initState "A" []).1 "B" 7).2 = 7 :=
  ⟨((C6_insert_frame (FindOrCreatePrimTypeInfo initState "A" []).1 "A" 7).1 1
      (by decide)).1,
   ((C6_insert_frame (FindOrCreatePrimTypeInfo initState "A" []).1 "B" 7).2
      (by decide)).1⟩

/-- C7: order sensitivity.  For any base type and any two comma-free trait
lists of length above one holding the same names in a different order, the
derived keys differ; and concretely the calls `("Mesh", ["A","B"])` then
`("Mesh", ["B","A"])` return two distinct descriptor addresses whose stored
trait sequences preserve the order each was given. -/
theorem C7_order_sensitivity :
    (∀ (pt : TfToken) (l1 l2 : TfTokenVector),
      1 < l1.length → 1 < l2.length → l1.Perm l2 → l1 ≠ l2 →
      (∀ t ∈ l1, ',' ∉ t.data) → (∀ t ∈ l2, ',' ∉ t.data) →
      _CreatePrimTypeInfoKey pt l1 ≠ _CreatePrimTypeInfoKey pt l2) ∧
    ((FindOrCreatePrimTypeInfo initState "Mesh" ["A", "B"]).2 ≠
      (FindOrCreatePrimTypeInfo
        (FindOrCreatePrimTypeInfo initState "Mesh" ["A", "B"]).1 "Mesh" ["B", "A"]).2 ∧
     (FindOrCreatePrimTypeInfo
        (FindOrCreatePrimTypeInfo initState "Mesh" ["A", "B"]).1 "Mesh" ["B", "A"]).1.heap
          (FindOrCreatePrimTypeInfo initState "Mesh" ["A", "B"]).2 =
        some ⟨"Mesh", ["A", "B"]⟩ ∧
     (FindOrCreatePrimTypeInfo
        (FindOrCreatePrimTypeInfo initState "Mesh" ["A", "B"]).1 "Mesh" ["B", "A"]).1.heap
          (FindOrCreatePrimTypeInfo
            (FindOrCreatePrimTypeInfo initState "Mesh" ["A", "B"]).1 "Mesh" ["B", "A"]).2 =
        some ⟨"Mesh", ["B", "A"]⟩) := by
  constructor
  · intro pt l1 l2 hl1 hl2 _ hne hc1 hc2 heq
    have h1 : l1 ≠ [] := by
      intro h
      rw [h] at hl1
      exact absurd hl1 (by decide)
    have h2 : l2 ≠ [] := by
      intro h
      rw [h] at hl2
      exact absurd hl2 (by decide)
    exact hne (key_inj_of_no_comma pt l1 l2 h1 h2 hc1 hc2 heq)
  · exact ⟨by decide, by decide, by decide⟩

theorem C7_order_sensitivity_witness :
    _CreatePrimTypeInfoKey "Mesh" ["A", "B"] ≠ _CreatePrimTypeInfoKey "Mesh" ["B", "A"] :=
  C7_order_sensitivity.1 "Mesh" ["A", "B"] ["B", "A"] (by decide) (by decide)
    (by decide) (by decide) (by decide) (by decide)

/-- C8: degenerate base type.  The keys derived for `("", ["A"])` and
`("A", [])` are `",A"` and `"A"`; a call with empty prim type and the single
trait `"A"` does not take the empty-singleton path and succeeds, returning a
live descriptor distinct both from the empty singleton and from the descriptor
returned for `("A", [])`. -/
theorem C8_degenerate_base :
    _CreatePrimTypeInfoKey "" ["A"] = ",A" ∧
    _CreatePrimTypeInfoKey "A" [] = "A" ∧
    (FindOrCreatePrimTypeInfo initState "" ["A"]).2 ≠ GetEmptyPrimTypeInfo initState ∧
    (FindOrCreatePrimTypeInfo initState "" ["A"]).2 ≠
      (FindOrCreatePrimTypeInfo
        (FindOrCreatePrimTypeInfo initState "" ["A"]).1 "A" []).2 ∧
    ((FindOrCreatePrimTypeInfo
        (FindOrCreatePrimTypeInfo initState "" ["A"]).1 "A" []).1.heap
      (FindOrCreatePrimTypeInfo initState "" ["A"]).2).isSome = true ∧
    ((FindOrCreatePrimTypeInfo
        (FindOrCreatePrimTypeInfo initState "" ["A"]).1 "A" []).1.heap
      (FindOrCreatePrimTypeInfo
        (FindOrCreatePrimTypeInfo initState "" ["A"]).1 "A" []).2).isSome = true := by
  refine ⟨?_, rfl, ?_, ?_, ?_, ?_⟩ <;> decide

/-- C9: key determinism.  Key derivation is a pure function of the prim type
and the ordered trait list: any two calls on equal inputs yield equal keys.  In
this embedding `_CreatePrimTypeInfoKey`, like the static `const`-argument C++
function it mirrors, consumes no state and produces only its result. -/
theorem C9_key_determinism (pt1 pt2 : TfToken) (ts1 ts2 : TfTokenVector)
    (h1 : pt1 = pt2) (h2 : ts1 = ts2) :
    _CreatePrimTypeInfoKey pt1 ts1 = _CreatePrimTypeInfoKey pt2 ts2 := by
  rw [h1, h2]

theorem C9_key_determinism_witness :
    _CreatePrimTypeInfoKey "Mesh" ["A"] = _CreatePrimTypeInfoKey "Mesh" ["A"] :=
  C9_key_determinism "Mesh" "Mesh" ["A"] ["A"] rfl rfl

/-- C10: the empty-singleton path is taken iff both inputs are empty: the
derived key is empty exactly when the prim type is empty and the trait list is
empty; any input with at least one trait (even an empty-named one) derives a
key containing a `','`; and on any well-formed state such an input is answered
through the main table, never with the empty singleton's address. -/
theorem C10_singleton_path_iff (s : CacheState) (pt : TfToken) (ts : TfTokenVector)
    (hwf : WF s) :
    ((_CreatePrimTypeInfoKey pt ts).isEmpty = true ↔ pt.isEmpty = true ∧ ts = []) ∧
    (∀ t rest, ts = t :: rest → ',' ∈ (_CreatePrimTypeInfoKey pt ts).data) ∧
    (ts ≠ [] → (FindOrCreatePrimTypeInfo s pt ts).2 ≠ s.emptyPrimTypeInfo) := by
  refine ⟨key_isEmpty_iff pt ts, ?_, ?_⟩
  · intro t rest h
    subst h
    exact key_comma_mem pt t rest
  · intro hne
    have hk : (_CreatePrimTypeInfoKey pt ts).isEmpty = false := by
      rcases hb : (_CreatePrimTypeInfoKey pt ts).isEmpty with _ | _
      · rfl
      · exact absurd ((key_isEmpty_iff pt ts).mp hb).2 hne
    exact FindOrCreate_ret_ne_empty hwf hk

theorem C10_singleton_path_iff_witness :
    (FindOrCreatePrimTypeInfo initState "" [""]).2 ≠ initState.emptyPrimTypeInfo :=
  (C10_singleton_path_iff initState "" [""] WF_initState).2.2 (by decide)

/-! Concurrent model.  Each thread runs one `FindOrCreatePrimTypeInfo` call.
The TBB hash map makes `Find` and `Insert` atomic (accessor locking), while the
speculative `new Usd_PrimTypeInfo(...)` between them touches only freshly
allocated storage, so a thread is modelled by three atomic phases: `ready`
(about to probe), `constructed ptr` (probe missed and the speculative
descriptor was built at fresh address `ptr`), and `done ret sp` (the call
returned address `ret`; `sp` records the speculative descriptor this thread
built, if any). -/

inductive Phase where
  | ready
  | constructed (ptr : Nat)
  | done (ret : Nat) (sp : Option Nat)
deriving DecidableEq

structure Thread where
  primType : TfToken
  appliedSchemas : TfTokenVector
  phase : Phase
deriving DecidableEq

/-- The key this thread's call derives. -/
def Thread.key (t : Thread) : TfToken :=
  _CreatePrimTypeInfoKey t.primType t.appliedSchemas

/-- The speculative descriptor address a thread currently owns or has owned. -/
def specPtr (t : Thread) : Option Nat :=
  match t.phase with
  | .ready => none
  | .constructed ptr => some ptr
  | .done _ sp => sp

/-- One atomic step of a single thread running `FindOrCreatePrimTypeInfo`
against the shared cache. -/
inductive TStep : CacheState → Thread → CacheState → Thread → Prop where
  | emptyKey (c : CacheState) (pt : TfToken) (schemas : TfTokenVector)
      (hk : (_CreatePrimTypeInfoKey pt schemas).isEmpty = true) :
      TStep c ⟨pt, schemas, .ready⟩
        c ⟨pt, schemas, .done c.emptyPrimTypeInfo none⟩
  | findHit (c : CacheState) (pt : TfToken) (schemas : TfTokenVector) (p : Nat)
      (hk : (_CreatePrimTypeInfoKey pt schemas).isEmpty = false)
      (hf : Find c (_CreatePrimTypeInfoKey pt schemas) = some p) :
      TStep c ⟨pt, schemas, .ready⟩ c ⟨pt, schemas, .done p none⟩
  | findMissConstruct (c : CacheState) (pt : TfToken) (schemas : TfTokenVector)
      (hk : (_CreatePrimTypeInfoKey pt schemas).isEmpty = false)
      (hf : Find c (_CreatePrimTypeInfoKey pt schemas) = none) :
      TStep c ⟨pt, schemas, .ready⟩
        ({ c with
            heap := fun n =>
              if n = c.nextAddr then some ⟨pt, schemas⟩ else c.heap n,
            nextAddr := c.nextAddr + 1 })
        ⟨pt, schemas, .constructed c.nextAddr⟩
  | insertStep (c : CacheState) (pt : TfToken) (schemas : TfTokenVector) (ptr : Nat) :
      TStep c ⟨pt, schemas, .constructed ptr⟩
        (Insert c (_CreatePrimTypeInfoKey pt schemas) ptr).1
        ⟨pt, schemas,
          .done (Insert c (_CreatePrimTypeInfoKey pt schemas) ptr).2 (some ptr)⟩

/-- The global state: the shared cache and the pool of threads. -/
structure GState where
  cache : CacheState
  threads : List Thread

/-- Interleaving: some thread takes one atomic step. -/
inductive GStep : GState → GState → Prop where
  | mk (g : GState) (i : Nat) (t t1 : Thread) (c1 : CacheState)
      (hget : g.threads.get? i = some t)
      (hstep : TStep g.cache t c1 t1) :
      GStep g ⟨c1, g.threads.set i t1⟩

/-- The initial global state: a fresh cache and one ready thread per request. -/
def GInit (reqs : List (TfToken × TfTokenVector)) : GState :=
  ⟨initState, reqs.map (fun r => ⟨r.1, r.2, .ready⟩)⟩

/-- Reachability by interleaved execution. -/
def Reach : GState → GState → Prop :=
  Relation.ReflTransGen GStep

theorem get_set_self {α : Type} {l : List α} {i : Nat} {a : α}
    (h : l.get? i = some a) (b : α) : (l.set i b).get? i = some b := by
  rw [List.get?_set_eq, h]
  rfl

theorem get_set_ne {α : Type} {l : List α} {i j : Nat} (h : i ≠ j) (b : α) :
    (l.set i b).get? j = l.get? j :=
  List.get?_set_ne b l h

/-- Per-thread invariant over the shared cache: a constructed speculative
descriptor is live, fresh, not the empty singleton, and not yet owned by the
map; a completed call on an empty key returned the empty singleton; a
completed call on a non-empty key returned exactly the map's entry for its
key, and its speculative descriptor, if it lost, is dead and outside the map. -/
def TOk (c : CacheState) (t : Thread) : Prop :=
  match t.phase with
  | .ready => True
  | .constructed ptr =>
      t.key.isEmpty = false ∧
      (c.heap ptr).isSome = true ∧ ptr < c.nextAddr ∧ ptr ≠ c.emptyPrimTypeInfo ∧
      (∀ k p, (k, p) ∈ c.entries → p ≠ ptr)
  | .done ret sp =>
      (t.key.isEmpty = true → ret = c.emptyPrimTypeInfo ∧ sp = none) ∧
      (t.key.isEmpty = false → c.entries.lookup t.key = some ret) ∧
      (∀ r, sp = some r → r < c.nextAddr ∧ r ≠ c.emptyPrimTypeInfo ∧
        (r ≠ ret → c.heap r = none ∧ ∀ k p, (k, p) ∈ c.entries → p ≠ r))

/-- Global invariant of the interleaved system. -/
structure Inv (g : GState) : Prop where
  wf : WF g.cache
  tok : ∀ i t, g.threads.get? i = some t → TOk g.cache t
  distinct : ∀ i j ti tj r, i ≠ j →
    g.threads.get? i = some ti → g.threads.get? j = some tj →
    specPtr ti = some r → specPtr tj ≠ some r
  owner : ∀ k p, (k, p) ∈ g.cache.entries →
    ∃ i t, g.threads.get? i = some t ∧ t.key = k ∧ t.phase = .done p (some p)

theorem specPtr_lt {c : CacheState} {t : Thread} (h : TOk c t) {r : Nat}
    (hs : specPtr t = some r) : r < c.nextAddr := by
  cases hp : t.phase with
  | ready => rw [specPtr, hp] at hs; exact Option.noConfusion hs
  | constructed ptr =>
      rw [specPtr, hp] at hs
      rw [TOk, hp] at h
      cases hs
      exact h.2.2.1
  | done ret sp =>
      rw [specPtr, hp] at hs
      rw [TOk, hp] at h
      exact (h.2.2 r hs).1

theorem Inv_init (reqs : List (TfToken × TfTokenVector)) : Inv (GInit reqs) := by
  refine ⟨WF_initState, ?_, ?_, ?_⟩
  · intro i t hget
    have hmem : t ∈ (GInit reqs).threads := List.get?_mem hget
    simp only [GInit, List.mem_map] at hmem
    obtain ⟨r, _, hr⟩ := hmem
    rw [← hr]
    trivial
  · intro i j ti tj r _ hgi _ hsi
    have hmem : ti ∈ (GInit reqs).threads := List.get?_mem hgi
    simp only [GInit, List.mem_map] at hmem
    obtain ⟨q, _, hq⟩ := hmem
    rw [← hq] at hsi
    exact Option.noConfusion hsi
  · intro k p hmem
    simp [GInit, initState] at hmem

theorem WF_alloc {c : CacheState} (hwf : WF c) (info : Usd_PrimTypeInfo) :
    WF { c with
      heap := fun n => if n = c.nextAddr then some info else c.heap n,
      nextAddr := c.nextAddr + 1 } := by
  obtain ⟨hlt, hemp, hent, hnd⟩ := hwf
  refine ⟨Nat.lt_succ_of_lt hlt, ?_, ?_, hnd⟩
  · simpa [Nat.ne_of_lt hlt] using hemp
  · intro k p hmem
    obtain ⟨hlive, hplt, hpne, hkne⟩ := hent k p hmem
    exact ⟨by simpa [Nat.ne_of_lt hplt] using hlive, Nat.lt_succ_of_lt hplt, hpne, hkne⟩

theorem WF_kill {c : CacheState} (hwf : WF c) {dead : Nat}
    (hnotin : ∀ k p, (k, p) ∈ c.entries → p ≠ dead)
    (hne : dead ≠ c.emptyPrimTypeInfo) :
    WF { c with heap := fun n => if n = dead then none else c.heap n } := by
  obtain ⟨hlt, hemp, hent, hnd⟩ := hwf
  refine ⟨hlt, ?_, ?_, hnd⟩
  · simpa [Ne.symm hne] using hemp
  · intro k p hmem
    obtain ⟨hlive, hplt, hpne, hkne⟩ := hent k p hmem
    exact ⟨by simpa [hnotin k p hmem] using hlive, hplt, hpne, hkne⟩

theorem WF_insert_new {c : CacheState} (hwf : WF c) {key : TfToken} {ptr : Nat}
    (hlookup : c.entries.lookup key = none)
    (hlive : (c.heap ptr).isSome = true) (hlt : ptr < c.nextAddr)
    (hne : ptr ≠ c.emptyPrimTypeInfo) (hkey : key.isEmpty = false) :
    WF { c with entries := (key, ptr) :: c.entries } := by
  obtain ⟨hlt0, hemp, hent, hnd⟩ := hwf
  refine ⟨hlt0, hemp, ?_, ?_⟩
  · intro k p hmem
    rcases List.mem_cons.mp hmem with hhd | htl
    · have hk1 : k = key := congrArg Prod.fst hhd
      have hp1 : p = ptr := congrArg Prod.snd hhd
      subst hk1
      subst hp1
      exact ⟨hlive, hlt, hne, hkey⟩
    · exact hent k p htl
  · exact List.Nodup.cons (lookup_none_not_key hlookup) hnd

theorem TOk_alloc {c : CacheState} {t : Thread} (h : TOk c t)
    (info : Usd_PrimTypeInfo) :
    TOk { c with
      heap := fun n => if n = c.nextAddr then some info else c.heap n,
      nextAddr := c.nextAddr + 1 } t := by
  cases hp : t.phase with
  | ready => rw [TOk, hp]; trivial
  | constructed ptr =>
      rw [TOk, hp] at h ⊢
      obtain ⟨hkey, hlive, hlt, hne, hnotin⟩ := h
      exact ⟨hkey, by simpa [Nat.ne_of_lt hlt] using hlive, Nat.lt_succ_of_lt hlt,
        hne, hnotin⟩
  | done ret sp =>
      rw [TOk, hp] at h ⊢
      obtain ⟨hemp, hlook, hsp⟩ := h
      refine ⟨hemp, hlook, ?_⟩
      intro r hr
      obtain ⟨hrlt, hrne, hlost⟩ := hsp r hr
      refine ⟨Nat.lt_succ_of_lt hrlt, hrne, ?_⟩
      intro hrr
      obtain ⟨hdead, hnotin⟩ := hlost hrr
      exact ⟨by simpa [Nat.ne_of_lt hrlt] using hdead, hnotin⟩

theorem TOk_kill {c : CacheState} {t : Thread} (h : TOk c t) {dead : Nat}
    (hns : specPtr t ≠ some dead) :
    TOk { c with heap := fun n => if n = dead then none else c.heap n } t := by
  cases hp : t.phase with
  | ready => rw [TOk, hp]; trivial
  | constructed ptr =>
      rw [TOk, hp] at h ⊢
      obtain ⟨hkey, hlive, hlt, hne, hnotin⟩ := h
      have hptr : ptr ≠ dead := by
        intro he
        rw [specPtr, hp, he] at hns
        exact hns rfl
      exact ⟨hkey, by simpa [hptr] using hlive, hlt, hne, hnotin⟩
  | done ret sp =>
      rw [TOk, hp] at h ⊢
      obtain ⟨hemp, hlook, hsp⟩ := h
      refine ⟨hemp, hlook, ?_⟩
      intro r hr
      obtain ⟨hrlt, hrne, hlost⟩ := hsp r hr
      refine ⟨hrlt, hrne, ?_⟩
      intro hrr
      obtain ⟨hdead, hnotin⟩ := hlost hrr
      refine ⟨?_, hnotin⟩
      by_cases hrd : r = dead
      · simp [hrd]
      · simpa [hrd] using hdead

theorem TOk_insert_new {c : CacheState} {t : Thread} (h : TOk c t)
    {key : TfToken} {ptr : Nat}
    (hlookup : c.entries.lookup key = none)
    (hns : specPtr t ≠ some ptr) :
    TOk { c with entries := (key, ptr) :: c.entries } t := by
  cases hp : t.phase with
  | ready => rw [TOk, hp]; trivial
  | constructed q =>
      rw [TOk, hp] at h ⊢
      obtain ⟨hkey, hlive, hlt, hne, hnotin⟩ := h
      refine ⟨hkey, hlive, hlt, hne, ?_⟩
      intro k p hmem
      rcases List.mem_cons.mp hmem with hhd | htl
      · have hp1 : p = ptr := congrArg Prod.snd hhd
        subst hp1
        intro he
        rw [specPtr, hp, he] at hns
        exact hns rfl
      · exact hnotin k p htl
  | done ret sp =>
      rw [TOk, hp] at h ⊢
      obtain ⟨hemp, hlook, hsp⟩ := h
      refine ⟨hemp, ?_, ?_⟩
      · intro hke
        have hret := hlook hke
        have hkne : t.key ≠ key := by
          intro he
          rw [he, hlookup] at hret
          exact Option.noConfusion hret
        show (((key, ptr) :: c.entries).lookup t.key) = some ret
        rw [lookup_cons_ne hkne]
        exact hret
      · intro r hr
        obtain ⟨hrlt, hrne, hlost⟩ := hsp r hr
        refine ⟨hrlt, hrne, ?_⟩
        intro hrr
        obtain ⟨hdead, hnotin⟩ := hlost hrr
        refine ⟨hdead, ?_⟩
        intro k p hmem
        rcases List.mem_cons.mp hmem with hhd | htl
        · have hp1 : p = ptr := congrArg Prod.snd hhd
          intro he
          apply hns
          rw [specPtr, hp, hr]
          exact congrArg some (he.symm.trans hp1)
        · exact hnotin k p htl

theorem tok_set {l : List Thread} {i : Nat} {t1 : Thread} {c1 : CacheState}
    (hold : ∀ j tj, j ≠ i → l.get? j = some tj → TOk c1 tj)
    (hnew : TOk c1 t1) :
    ∀ j tj, (l.set i t1).get? j = some tj → TOk c1 tj := by
  intro j tj hgj
  by_cases hji : j = i
  · subst hji
    cases hgi : l.get? j with
    | none => rw [List.get?_set_eq, hgi] at hgj; exact Option.noConfusion hgj
    | some t0 =>
        rw [List.get?_set_eq, hgi] at hgj
        cases hgj
        exact hnew
  · rw [get_set_ne (Ne.symm hji)] at hgj
    exact hold j tj hji hgj

theorem distinct_set {l : List Thread} {i : Nat} {t t1 : Thread}
    (hget : l.get? i = some t)
    (hdis : ∀ a b ta tb r, a ≠ b → l.get? a = some ta → l.get? b = some tb →
      specPtr ta = some r → specPtr tb ≠ some r)
    (hnew : ∀ r, specPtr t1 = some r →
      specPtr t = some r ∨ (∀ j tj, l.get? j = some tj → specPtr tj ≠ some r)) :
    ∀ a b ta tb r, a ≠ b → (l.set i t1).get? a = some ta →
      (l.set i t1).get? b = some tb → specPtr ta = some r → specPtr tb ≠ some r := by
  intro a b ta tb r hab hga hgb hsa
  by_cases hai : a = i
  · subst hai
    have hta : ta = t1 := by
      rw [get_set_self hget t1] at hga
      exact (Option.some.inj hga).symm
    subst hta
    have hgb0 : l.get? b = some tb := by
      rw [get_set_ne hab] at hgb
      exact hgb
    rcases hnew r hsa with hl | hr
    · exact hdis a b t tb r hab hget hgb0 hl
    · exact hr b tb hgb0
  · by_cases hbi : b = i
    · subst hbi
      have htb : tb = t1 := by
        rw [get_set_self hget t1] at hgb
        exact (Option.some.inj hgb).symm
      subst htb
      have hga0 : l.get? a = some ta := by
        rw [get_set_ne (Ne.symm hab)] at hga
        exact hga
      intro heq
      rcases hnew r heq with hl | hr
      · exact hdis a b ta t r hab hga0 hget hsa hl
      · exact hr a ta hga0 hsa
    · have hga0 : l.get? a = some ta := by
        rw [get_set_ne (Ne.symm hai)] at hga
        exact hga
      have hgb0 : l.get? b = some tb := by
        rw [get_set_ne (Ne.symm hbi)] at hgb
        exact hgb
      exact hdis a b ta tb r hab hga0 hgb0 hsa

theorem owner_set {l : List Thread} {i : Nat} {t t1 : Thread}
    (hget : l.get? i = some t)
    (hnotdone : ∀ re sp, t.phase ≠ Phase.done re sp) {k : TfToken} {p : Nat}
    (h : ∃ j tw, l.get? j = some tw ∧ tw.key = k ∧ tw.phase = .done p (some p)) :
    ∃ j tw, (l.set i t1).get? j = some tw ∧ tw.key = k ∧
      tw.phase = .done p (some p) := by
  obtain ⟨j, tw, hgw, hkw, hpw⟩ := h
  have hji : j ≠ i := by
    intro he
    subst he
    rw [hget] at hgw
    cases hgw
    exact hnotdone p (some p) hpw
  refine ⟨j, tw, ?_, hkw, hpw⟩
  rw [get_set_ne (Ne.symm hji)]
  exact hgw

theorem Inv_step {g g1 : GState} (hinv : Inv g) (hs : GStep g g1) : Inv g1 := by
  obtain ⟨hwf, htok, hdis, hown⟩ := hinv
  cases hs with
  | mk i t t1 c1 hget hstep =>
    cases hstep with
    | emptyKey pt schemas hk =>
        refine ⟨hwf, ?_, ?_, ?_⟩
        · refine tok_set (fun j tj _ hgj => htok j tj hgj) ?_
          exact ⟨fun _ => ⟨rfl, rfl⟩,
            fun hke => Bool.noConfusion (hk.symm.trans hke),
            fun r hr => Option.noConfusion hr⟩
        · exact distinct_set hget hdis (fun r hr => Option.noConfusion hr)
        · intro k p hmem
          exact owner_set hget (fun re sp h => Phase.noConfusion h) (hown k p hmem)
    | findHit pt schemas p hk hf =>
        refine ⟨hwf, ?_, ?_, ?_⟩
        · refine tok_set (fun j tj _ hgj => htok j tj hgj) ?_
          exact ⟨fun hke => Bool.noConfusion (hk.symm.trans hke),
            fun _ => hf,
            fun r hr => Option.noConfusion hr⟩
        · exact distinct_set hget hdis (fun r hr => Option.noConfusion hr)
        · intro k p hmem
          exact owner_set hget (fun re sp h => Phase.noConfusion h) (hown k p hmem)
    | findMissConstruct pt schemas hk hf =>
        refine ⟨WF_alloc hwf ⟨pt, schemas⟩, ?_, ?_, ?_⟩
        · refine tok_set (fun j tj _ hgj => TOk_alloc (htok j tj hgj) ⟨pt, schemas⟩) ?_
          exact ⟨hk, by simp, Nat.lt_succ_self _, (Nat.ne_of_lt hwf.1).symm,
            fun k p hmem => Nat.ne_of_lt (hwf.2.2.1 k p hmem).2.1⟩
        · refine distinct_set hget hdis ?_
          intro r hr
          right
          have hrr : r = g.cache.nextAddr := (Option.some.inj hr).symm
          subst hrr
          intro j tj hgj heq
          exact absurd (specPtr_lt (htok j tj hgj) heq) (Nat.lt_irrefl _)
        · intro k p hmem
          exact owner_set hget (fun re sp h => Phase.noConfusion h) (hown k p hmem)
    | insertStep pt schemas ptr =>
        have htc : TOk g.cache ⟨pt, schemas, Phase.constructed ptr⟩ :=
          htok i ⟨pt, schemas, Phase.constructed ptr⟩ hget
        obtain ⟨hkey, hlive, hlt, hneE, hnotin⟩ := htc
        rcases hlook : g.cache.entries.lookup (_CreatePrimTypeInfoKey pt schemas)
          with _ | q
        · rw [Insert_absent hlook]
          refine ⟨?_, ?_, ?_, ?_⟩
          · exact WF_insert_new hwf hlook hlive hlt hneE hkey
          · refine tok_set
              (fun j tj hji hgj => TOk_insert_new (htok j tj hgj) hlook
                (hdis i j _ tj ptr (Ne.symm hji) hget hgj rfl)) ?_
            refine ⟨fun hke => Bool.noConfusion (hkey.symm.trans hke),
              fun _ => lookup_cons_self, ?_⟩
            intro r hr
            have he : ptr = r := Option.some.inj hr
            subst he
            exact ⟨hlt, hneE, fun hrr => absurd rfl hrr⟩
          · refine distinct_set hget hdis ?_
            intro r hr
            left
            exact hr
          · intro k p hmem
            rcases List.mem_cons.mp hmem with hhd | htl
            · have hk1 : k = _CreatePrimTypeInfoKey pt schemas := congrArg Prod.fst hhd
              have hp1 : p = ptr := congrArg Prod.snd hhd
              subst hk1
              subst hp1
              exact ⟨i, _, get_set_self hget _, rfl, rfl⟩
            · exact owner_set hget (fun re sp h => Phase.noConfusion h) (hown k p htl)
        · rw [Insert_found hlook]
          refine ⟨?_, ?_, ?_, ?_⟩
          · exact WF_kill hwf hnotin hneE
          · refine tok_set
              (fun j tj hji hgj => TOk_kill (htok j tj hgj)
                (hdis i j _ tj ptr (Ne.symm hji) hget hgj rfl)) ?_
            refine ⟨fun hke => Bool.noConfusion (hkey.symm.trans hke),
              fun _ => hlook, ?_⟩
            intro r hr
            have he : ptr = r := Option.some.inj hr
            subst he
            exact ⟨hlt, hneE, fun _ => ⟨by simp, hnotin⟩⟩
          · refine distinct_set hget hdis ?_
            intro r hr
            left
            exact hr
          · intro k p hmem
            exact owner_set hget (fun re sp h => Phase.noConfusion h) (hown k p hmem)

theorem Inv_reach {reqs : List (TfToken × TfTokenVector)} {g : GState}
    (h : Reach (GInit reqs) g) : Inv g := by
  induction h with
  | refl => exact Inv_init reqs
  | tail hsteps hstep ih => exact Inv_step ih hstep

theorem Find_mono_GStep {g g1 : GState} (hs : GStep g g1) {k : TfToken} {p : Nat}
    (h : Find g.cache k = some p) : Find g1.cache k = some p := by
  cases hs with
  | mk i t t1 c1 hget hstep =>
    cases hstep with
    | emptyKey pt schemas hk => exact h
    | findHit pt schemas q hk hf => exact h
    | findMissConstruct pt schemas hk hf => exact h
    | insertStep pt schemas ptr =>
        rcases hlook : g.cache.entries.lookup (_CreatePrimTypeInfoKey pt schemas)
          with _ | q
        · rw [Insert_absent hlook]
          have h0 : g.cache.entries.lookup k = some p := h
          have hne : k ≠ _CreatePrimTypeInfoKey pt schemas := by
            intro he
            rw [he, hlook] at h0
            exact Option.noConfusion h0
          show (((_CreatePrimTypeInfoKey pt schemas, ptr) ::
            g.cache.entries).lookup k) = some p
          rw [lookup_cons_ne hne]
          exact h0
        · rw [Insert_found hlook]
          exact h

theorem Find_mono_Reach {g g1 : GState} (h : Reach g g1) {k : TfToken} {p : Nat}
    (hf : Find g.cache k = some p) : Find g1.cache k = some p := by
  induction h with
  | refl => exact hf
  | tail hsteps hstep ih => exact Find_mono_GStep hstep ih

theorem TOk_done_fields {c : CacheState} {t : Thread} {ret : Nat} {sp : Option Nat}
    (h : TOk c t) (hph : t.phase = .done ret sp) :
    (t.key.isEmpty = true → ret = c.emptyPrimTypeInfo ∧ sp = none) ∧
    (t.key.isEmpty = false → c.entries.lookup t.key = some ret) ∧
    (∀ r, sp = some r → r < c.nextAddr ∧ r ≠ c.emptyPrimTypeInfo ∧
      (r ≠ ret → c.heap r = none ∧ ∀ k p, (k, p) ∈ c.entries → p ≠ r)) := by
  unfold TOk at h
  rw [hph] at h
  exact h

theorem TOk_constructed_fields {c : CacheState} {t : Thread} {ptr : Nat}
    (h : TOk c t) (hph : t.phase = .constructed ptr) :
    t.key.isEmpty = false ∧ (c.heap ptr).isSome = true ∧ ptr < c.nextAddr ∧
      ptr ≠ c.emptyPrimTypeInfo ∧ ∀ k p, (k, p) ∈ c.entries → p ≠ ptr := by
  unfold TOk at h
  rw [hph] at h
  exact h

theorem specPtr_of_done {t : Thread} {ret : Nat} {sp : Option Nat}
    (hph : t.phase = .done ret sp) : specPtr t = sp := by
  unfold specPtr
  rw [hph]

/-- C5: per-key race resolution.  In every state reachable by interleaving
threads running `FindOrCreatePrimTypeInfo`: (a) any two completed calls whose
inputs derive the same non-empty key returned the same descriptor address;
(b) a completed call's returned address is exactly the table's entry for its
key, and a speculative descriptor that lost its race is dead and owned by no
table entry — it was destroyed and can never be returned; (c) for every key in
the table exactly one thread's speculatively constructed descriptor became the
canonical entry, and the entry keeps that same address in every further
reachable state (creation is linearizable per key); (d) a losing insert step is
precisely where the loser is destroyed: its descriptor is live in the state
before that step and dead in the state after it. -/
theorem C5_race_resolution (reqs : List (TfToken × TfTokenVector)) (g : GState)
    (hreach : Reach (GInit reqs) g) :
    (∀ i j ti tj reti retj spi spj,
      g.threads.get? i = some ti → g.threads.get? j = some tj →
      ti.phase = .done reti spi → tj.phase = .done retj spj →
      ti.key = tj.key → ti.key.isEmpty = false → reti = retj) ∧
    (∀ i ti ret sp, g.threads.get? i = some ti → ti.phase = .done ret sp →
      ti.key.isEmpty = false →
      Find g.cache ti.key = some ret ∧
      (∀ r, sp = some r → r ≠ ret →
        g.cache.heap r = none ∧ ∀ k p, (k, p) ∈ g.cache.entries → p ≠ r)) ∧
    (∀ k p, Find g.cache k = some p →
      (∃! i, ∃ t, g.threads.get? i = some t ∧ t.key = k ∧
        t.phase = .done p (some p)) ∧
      ∀ g1, Reach g g1 → Find g1.cache k = some p) ∧
    (∀ i t c1 t1 ptr ret sp1, g.threads.get? i = some t →
      TStep g.cache t c1 t1 → t.phase = .constructed ptr →
      t1.phase = .done ret sp1 → ret ≠ ptr →
      (g.cache.heap ptr).isSome = true ∧ c1.heap ptr = none) := by
  have hinv : Inv g := Inv_reach hreach
  refine ⟨?_, ?_, ?_, ?_⟩
  · intro i j ti tj reti retj spi spj hgi hgj hpi hpj hkeq hkne
    have hi := (TOk_done_fields (hinv.tok i ti hgi) hpi).2.1 hkne
    have hj := (TOk_done_fields (hinv.tok j tj hgj) hpj).2.1 (by rw [← hkeq]; exact hkne)
    rw [hkeq] at hi
    exact Option.some.inj (hi.symm.trans hj)
  · intro i ti ret sp hgi hpi hkne
    have hd := TOk_done_fields (hinv.tok i ti hgi) hpi
    refine ⟨hd.2.1 hkne, ?_⟩
    intro r hr hrret
    exact (hd.2.2 r hr).2.2 hrret
  · intro k p hp
    constructor
    · obtain ⟨iw, tw, hgw, hkw, hpw⟩ := hinv.owner k p (lookup_some_mem hp)
      refine ⟨iw, ⟨tw, hgw, hkw, hpw⟩, ?_⟩
      intro j hj
      obtain ⟨tj, hgj, hkj, hpj⟩ := hj
      by_contra hne
      exact hinv.distinct j iw tj tw p hne hgj hgw
        (specPtr_of_done hpj) (specPtr_of_done hpw)
    · intro g1 hreach1
      exact Find_mono_Reach hreach1 hp
  · intro i t c1 t1 ptr ret sp1 hget hstep hphc hphd hne
    have htc := TOk_constructed_fields (hinv.tok i t hget) hphc
    cases hstep with
    | emptyKey pt schemas hk => exact Phase.noConfusion hphc
    | findHit pt schemas q hk hf => exact Phase.noConfusion hphc
    | findMissConstruct pt schemas hk hf => exact Phase.noConfusion hphc
    | insertStep pt schemas ptr2 =>
        have hpp : ptr2 = ptr := by
          cases hphc
          rfl
        subst hpp
        rcases hlook : g.cache.entries.lookup (_CreatePrimTypeInfoKey pt schemas)
          with _ | q
        · have hret : (Insert g.cache (_CreatePrimTypeInfoKey pt schemas) ptr2).2 = ret := by
            cases hphd
            rfl
          rw [Insert_absent hlook] at hret
          exact absurd hret.symm hne
        · rw [Insert_found hlook]
          exact ⟨htc.2.1, by simp⟩

/-- Two threads both requesting `("A", [])`. -/
def raceReqs : List (TfToken × TfTokenVector) := [("A", []), ("A", [])]

/-- The state after the full race: thread 0 misses and constructs descriptor 1,
thread 1 misses and constructs descriptor 2, thread 0 inserts first and wins,
thread 1 inserts, loses, and destroys descriptor 2; both return address 1. -/
def raceFinal : GState where
  cache :=
    { entries := [("A", 1)],
      heap := fun n =>
        if n = 2 then none
        else if n = 2 then some ⟨"A", []⟩
        else if n = 1 then some ⟨"A", []⟩
        else if n = 0 then some ⟨"", []⟩ else none,
      nextAddr := 3,
      emptyPrimTypeInfo := 0 }
  threads := [⟨"A", [], .done 1 (some 1)⟩, ⟨"A", [], .done 1 (some 2)⟩]

theorem race_reach : Reach (GInit raceReqs) raceFinal :=
  Relation.ReflTransGen.tail (Relation.ReflTransGen.tail (Relation.ReflTransGen.tail
    (Relation.ReflTransGen.single
      (GStep.mk (GInit raceReqs) 0 _ _ _ rfl
        (TStep.findMissConstruct initState "A" [] (by decide) (by decide))))
    (GStep.mk _ 1 _ _ _ rfl
      (TStep.findMissConstruct _ "A" [] (by decide) (by decide))))
    (GStep.mk _ 0 _ _ _ rfl (TStep.insertStep _ "A" [] 1)))
    (GStep.mk _ 1 _ _ _ rfl (TStep.insertStep _ "A" [] 2))

theorem C5_race_resolution_witness :
    Find raceFinal.cache (_CreatePrimTypeInfoKey "A" []) = some 1 ∧
    raceFinal.cache.heap 2 = none := by
  have h := (C5_race_resolution raceReqs raceFinal race_reach).2.1 1
    ⟨"A", [], Phase.done 1 (some 2)⟩ 1 (some 2) rfl rfl (by decide)
  exact ⟨h.1, (h.2 2 rfl (by decide)).1⟩

end PrimTypeInfoCache
